import Mathlib

/-!
Verification of the streaming structural parser in `src/parser.rs`
(repository `noded-objects`).

The parser consumes a lazy sequence of lexer results and yields parse
events or errors, one per pull, driven by a context stack.  The lexer
itself is an external collaborator (its source is not part of the core):
we model its output as a list of `Except LexError LexToken` values, where
reaching the end of the list models the lexer returning `None`.  Source
positions are produced by the external lexer and carried opaquely through
every result; no property below depends on them, so results are modelled
as the event-or-error component alone.
-/

namespace NodedObjects

/-- Token kinds consumed by the parser.  `parser.rs` matches on
`Identifier`, `OpenBrace` and `CloseBrace` and treats every other kind
uniformly via catch-all arms; `otherToken` stands for all remaining kinds. -/
inductive LexToken where
  | identifier : String → LexToken
  | openBrace : LexToken
  | closeBrace : LexToken
  | otherToken : Nat → LexToken
deriving DecidableEq, Repr

/-- Lexical errors are produced by the external lexer and are opaque to the
parser beyond being wrappable; modelled as a tagged payload. -/
inductive LexError where
  | mk : Nat → LexError
deriving DecidableEq, Repr

/-- One result of the token source: a token or a lexical error
(`Option` exhaustion is modelled by the end of the token list). -/
abbrev TokResult := Except LexError LexToken

/-- `ParseEvent` from `parser.rs` lines 5-11. -/
inductive ParseEvent where
  | BeginFile : ParseEvent
  | EndOfFile : ParseEvent
  | NodeStart : String → ParseEvent
  | NodeEnd : ParseEvent
deriving DecidableEq, Repr

/-- `ParseError` from `parser.rs` lines 13-20. -/
inductive ParseError where
  | InvalidState : ParseError
  | NotYetImplemented : ParseError
  | LexError : LexError → ParseError
  | UnexpectedEndOfFile : ParseError
  | UnexpectedToken : LexToken → ParseError
deriving DecidableEq, Repr

/-- `ParseContext` from `parser.rs` lines 22-26. -/
inductive ParseContext where
  | Basefile : ParseContext
  | Node : Bool → ParseContext
deriving DecidableEq, Repr

/-- `ParseResult` (`parser.rs` line 29), without the opaque `Position`
component supplied by the external lexer. -/
abbrev ParseResult := Except ParseError ParseEvent

/-- The parser state (`parser.rs` lines 31-35): the context stack (head of
the list is the top of the `Vec`), the `ended` flag, and the remaining
output of the token source. -/
structure ParserState where
  context : List ParseContext
  ended : Bool
  tokens : List TokResult
deriving Repr

/-- `Parser::parse` (`parser.rs` lines 38-44): empty stack, not ended. -/
def initState (toks : List TokResult) : ParserState :=
  { context := [], ended := false, tokens := toks }

/-- `Parser::has_comma` (`parser.rs` lines 50-62): reads the flag of the
top context (pop then push back the same entry). -/
def hasComma (ctx : List ParseContext) : Bool :=
  match ctx with
  | [] => false
  | ParseContext.Basefile :: _ => false
  | ParseContext.Node b :: _ => b

/-- `Parser::set_comma` (`parser.rs` lines 64-74): replaces a `Node`
top entry by `Node(true)`; leaves `Basefile` and the empty stack alone. -/
def setComma (ctx : List ParseContext) : List ParseContext :=
  match ctx with
  | [] => []
  | ParseContext.Basefile :: rest => ParseContext.Basefile :: rest
  | ParseContext.Node _ :: rest => ParseContext.Node true :: rest

/-- `Parser::parse_context_file` (`parser.rs` lines 76-100).  The first
lexer result is consumed unconditionally; on an identifier a second one is
consumed.  `yield_error` sets `ended`; `yield_state` does not, except that
the `EndOfFile` arm sets `ended` itself (line 97). -/
def parseContextFile (s : ParserState) : Option ParseResult × ParserState :=
  match s.tokens with
  | Except.ok (LexToken.identifier ident) :: rest =>
    match rest with
    | Except.ok LexToken.openBrace :: rest2 =>
      (some (Except.ok (ParseEvent.NodeStart ident)),
        { s with context := ParseContext.Node true :: s.context, tokens := rest2 })
    | Except.ok tok :: rest2 =>
      (some (Except.error (ParseError.UnexpectedToken tok)),
        { s with ended := true, tokens := rest2 })
    | Except.error err :: rest2 =>
      (some (Except.error (ParseError.LexError err)),
        { s with ended := true, tokens := rest2 })
    | [] =>
      (some (Except.error ParseError.UnexpectedEndOfFile),
        { s with ended := true, tokens := [] })
  | Except.ok tok :: rest =>
    (some (Except.error (ParseError.UnexpectedToken tok)),
      { s with ended := true, tokens := rest })
  | Except.error err :: rest =>
    (some (Except.error (ParseError.LexError err)),
      { s with ended := true, tokens := rest })
  | [] =>
    (some (Except.ok ParseEvent.EndOfFile),
      { s with ended := true, tokens := [] })

/-- `Parser::parse_context_node` (`parser.rs` lines 102-134).  A close
brace pops the top context; an identifier first calls `set_comma` on the
current stack, then consumes a second lexer result. -/
def parseContextNode (s : ParserState) : Option ParseResult × ParserState :=
  match s.tokens with
  | Except.ok LexToken.closeBrace :: rest =>
    (some (Except.ok ParseEvent.NodeEnd),
      { s with context := s.context.tail, tokens := rest })
  | Except.ok (LexToken.identifier ident) :: rest =>
    match rest with
    | Except.ok LexToken.openBrace :: rest2 =>
      (some (Except.ok (ParseEvent.NodeStart ident)),
        { s with context := ParseContext.Node true :: setComma s.context, tokens := rest2 })
    | Except.ok tok :: rest2 =>
      (some (Except.error (ParseError.UnexpectedToken tok)),
        { s with context := setComma s.context, ended := true, tokens := rest2 })
    | Except.error err :: rest2 =>
      (some (Except.error (ParseError.LexError err)),
        { s with context := setComma s.context, ended := true, tokens := rest2 })
    | [] =>
      (some (Except.error ParseError.UnexpectedEndOfFile),
        { s with context := setComma s.context, ended := true, tokens := [] })
  | Except.ok _ :: rest =>
    (some (Except.error ParseError.NotYetImplemented),
      { s with ended := true, tokens := rest })
  | Except.error err :: rest =>
    (some (Except.error (ParseError.LexError err)),
      { s with ended := true, tokens := rest })
  | [] =>
    (some (Except.error ParseError.UnexpectedEndOfFile),
      { s with ended := true, tokens := [] })

/-- `<Parser as Iterator>::next` (`parser.rs` lines 149-167): `None` once
`ended`; otherwise dispatch on the top of the context stack (the Rust code
pops and immediately pushes back the same entry, so the stack is unchanged
before the sub-rule runs). -/
def parserNext (s : ParserState) : Option ParseResult × ParserState :=
  if s.ended then (none, s)
  else
    match s.context with
    | [] =>
      (some (Except.ok ParseEvent.BeginFile),
        { s with context := [ParseContext.Basefile] })
    | ParseContext.Basefile :: _ => parseContextFile s
    | ParseContext.Node _ :: _ => parseContextNode s

/-- The state after `n` pulls. -/
def stateAfter (s : ParserState) : Nat → ParserState
  | 0 => s
  | n + 1 => stateAfter (parserNext s).2 n

/-- The result of pull number `n` (0-based). -/
def resultAt (s : ParserState) (n : Nat) : Option ParseResult :=
  (parserNext (stateAfter s n)).1

/-- The results yielded by the first `n` pulls, stopping at exhaustion. -/
def resultsUpTo (s : ParserState) : Nat → List ParseResult
  | 0 => []
  | n + 1 =>
    match parserNext s with
    | (none, _) => []
    | (some r, s') => r :: resultsUpTo s' n

/-- The complete yielded sequence for a given token list: `length + 2`
pulls always suffice because every pull after the first either consumes a
token or terminates the stream. -/
def allResults (toks : List TokResult) : List ParseResult :=
  resultsUpTo (initState toks) (toks.length + 2)

/-- A terminal result: any error, or the `EndOfFile` success event. -/
def isTerminal : ParseResult → Bool
  | Except.error _ => true
  | Except.ok ParseEvent.EndOfFile => true
  | Except.ok _ => false

/-- Whether a result is the `BeginFile` success event. -/
def isBeginFile : ParseResult → Bool
  | Except.ok ParseEvent.BeginFile => true
  | _ => false

/-- Whether an optional result is the `InvalidState` error. -/
def isInvalidRes : Option ParseResult → Bool
  | some (Except.error ParseError.InvalidState) => true
  | _ => false

/-- Whether the top of the context stack is an open `Node` entry. -/
def isNodeTop : List ParseContext → Bool
  | ParseContext.Node _ :: _ => true
  | _ => false

/-- Balanced `IDENT { ... }` forests, matching the input grammar
`file := node*`, `node := IDENT open node* close`.  `cons name children
rest` denotes the forest `name { children } rest`. -/
inductive Forest where
  | nil : Forest
  | cons : String → Forest → Forest → Forest
deriving DecidableEq, Repr

/-- The token sequence of a balanced forest. -/
def forestTokens : Forest → List TokResult
  | Forest.nil => []
  | Forest.cons name children rest =>
    Except.ok (LexToken.identifier name) :: Except.ok LexToken.openBrace ::
      (forestTokens children ++ Except.ok LexToken.closeBrace :: forestTokens rest)

/-- The pre-order event sequence of a balanced forest. -/
def forestEvents : Forest → List ParseEvent
  | Forest.nil => []
  | Forest.cons name children rest =>
    ParseEvent.NodeStart name ::
      (forestEvents children ++ ParseEvent.NodeEnd :: forestEvents rest)

/-- Valid balanced-parenthesis event sequences with `NodeStart` as the
opener: each `NodeStart` is matched by the `NodeEnd` closing its segment. -/
inductive BalancedEvents : List ParseEvent → Prop where
  | nil : BalancedEvents []
  | node : ∀ name inner rest, BalancedEvents inner → BalancedEvents rest →
      BalancedEvents (ParseEvent.NodeStart name :: (inner ++ ParseEvent.NodeEnd :: rest))

/-- Nesting contribution of an event: `NodeStart` opens, `NodeEnd` closes. -/
def evDelta : ParseEvent → Int
  | ParseEvent.NodeStart _ => 1
  | ParseEvent.NodeEnd => -1
  | _ => 0

/-- Nesting contribution of a result (errors contribute nothing). -/
def resDelta : ParseResult → Int
  | Except.ok e => evDelta e
  | Except.error _ => 0

/-- Count of unmatched `NodeStart` events in a result sequence. -/
def bal : List ParseResult → Int
  | [] => 0
  | r :: rs => resDelta r + bal rs

/-- A well-shaped context stack: `Node true` entries above a single
`Basefile` entry at the base.  Every stack reachable after the first pull
has this shape. -/
def cleanStack : List ParseContext → Bool
  | [ParseContext.Basefile] => true
  | ParseContext.Node true :: rest => cleanStack rest
  | _ => false

/-- The stack-shape check of claim C3 alone: exactly one `Basefile`
entry, at the base of the stack, with only `Node` entries above it. -/
def goodStack : List ParseContext → Bool
  | [ParseContext.Basefile] => true
  | ParseContext.Node _ :: rest => goodStack rest
  | _ => false

/-- Every `Node` entry on the stack carries the flag `true`. -/
def allFlagsTrue (ctx : List ParseContext) : Bool :=
  ctx.all fun c =>
    match c with
    | ParseContext.Node b => b
    | ParseContext.Basefile => true

/-- `Produces s evs s'`: starting from `s`, some consecutive pulls yield
exactly the results `evs` and leave the parser in state `s'`. -/
inductive Produces : ParserState → List ParseResult → ParserState → Prop where
  | refl : ∀ s, Produces s [] s
  | step : ∀ {s r s' evs s''}, parserNext s = (some r, s') →
      Produces s' evs s'' → Produces s (r :: evs) s''

theorem Produces.trans {s s' s'' : ParserState} {a b : List ParseResult}
    (h1 : Produces s a s') (h2 : Produces s' b s'') : Produces s (a ++ b) s'' := by
  induction h1 with
  | refl s => simpa using h2
  | step hn _ ih => exact Produces.step hn (ih h2)

theorem next_of_ended {s : ParserState} (h : s.ended = true) :
    parserNext s = (none, s) := by
  simp [parserNext, h]

theorem stateAfter_ended {s : ParserState} (h : s.ended = true) :
    ∀ n, stateAfter s n = s := by
  intro n
  induction n with
  | zero => rfl
  | succ n ih =>
    show stateAfter (parserNext s).2 n = s
    rw [next_of_ended h]
    exact ih

theorem resultsUpTo_ended {s : ParserState} (h : s.ended = true) :
    ∀ n, resultsUpTo s n = [] := by
  intro n
  cases n with
  | zero => rfl
  | succ n => show resultsUpTo s (n+1) = []; rw [resultsUpTo, next_of_ended h]

theorem stateAfter_add (a : Nat) : ∀ (s : ParserState) (b : Nat),
    stateAfter s (a + b) = stateAfter (stateAfter s a) b := by
  induction a with
  | zero => intro s b; simp [stateAfter, Nat.zero_add]
  | succ a ih =>
    intro s b
    have h1 : a + 1 + b = (a + b) + 1 := by omega
    rw [h1]
    show stateAfter (parserNext s).2 (a + b) = stateAfter (stateAfter s (a+1)) b
    rw [ih]
    rfl

theorem produces_stateAfter {s s' : ParserState} {evs : List ParseResult}
    (h : Produces s evs s') : stateAfter s evs.length = s' := by
  induction h with
  | refl s => rfl
  | step hn _ ih =>
    show stateAfter _ (_ + 1) = _
    rw [stateAfter]
    rw [hn]
    exact ih

theorem produces_resultsUpTo {s s' : ParserState} {evs : List ParseResult}
    (h : Produces s evs s') (hend : s'.ended = true) :
    ∀ n, evs.length ≤ n → resultsUpTo s n = evs := by
  induction h with
  | refl s => intro n _; exact resultsUpTo_ended hend n
  | step hn _ ih =>
    intro n hlen
    cases n with
    | zero => simp at hlen
    | succ n =>
      rw [resultsUpTo, hn]
      have h2 := ih hend n (by simpa using hlen)
      simp [h2]

/-- Whether a token is an identifier. -/
def isIdentTok : LexToken → Bool
  | LexToken.identifier _ => true
  | _ => false

theorem state_eta (s : ParserState) (h : s.ended = false) :
    s = ⟨s.context, false, s.tokens⟩ := by
  rw [← h]

theorem cleanStack_basefile {rest : List ParseContext}
    (h : cleanStack (ParseContext.Basefile :: rest) = true) : rest = [] := by
  cases rest with
  | nil => rfl
  | cons c r =>
    cases c with
    | Basefile => exact Bool.noConfusion h
    | Node b => cases b <;> exact Bool.noConfusion h

theorem cleanStack_node {b : Bool} {rest : List ParseContext}
    (h : cleanStack (ParseContext.Node b :: rest) = true) :
    b = true ∧ cleanStack rest = true := by
  cases b with
  | false => exact Bool.noConfusion h
  | true => exact ⟨rfl, h⟩

theorem cleanStack_length_pos {ctx : List ParseContext}
    (h : cleanStack ctx = true) : 0 < ctx.length := by
  cases ctx with
  | nil => exact Bool.noConfusion h
  | cons c r => simp

theorem cleanStack_allFlagsTrue {ctx : List ParseContext}
    (h : cleanStack ctx = true) : allFlagsTrue ctx = true := by
  induction ctx with
  | nil => rfl
  | cons c rest ih =>
    cases c with
    | Basefile =>
      have := cleanStack_basefile h
      subst this
      rfl
    | Node b =>
      obtain ⟨hb, hr⟩ := cleanStack_node h
      subst hb
      simpa [allFlagsTrue] using ih hr

theorem cleanStack_goodStack {ctx : List ParseContext}
    (h : cleanStack ctx = true) : goodStack ctx = true := by
  induction ctx with
  | nil => exact Bool.noConfusion h
  | cons c rest ih =>
    cases c with
    | Basefile =>
      have := cleanStack_basefile h
      subst this
      rfl
    | Node b =>
      obtain ⟨hb, hr⟩ := cleanStack_node h
      subst hb
      show goodStack (ParseContext.Node true :: rest) = true
      cases rest with
      | nil => exact Bool.noConfusion hr
      | cons c2 r2 => exact ih hr

theorem pull_begin (toks : List TokResult) :
    parserNext (initState toks) =
      (some (Except.ok ParseEvent.BeginFile), ⟨[ParseContext.Basefile], false, toks⟩) := rfl

theorem pull_file_eof (rest : List ParseContext) :
    parserNext ⟨ParseContext.Basefile :: rest, false, []⟩ =
      (some (Except.ok ParseEvent.EndOfFile),
        ⟨ParseContext.Basefile :: rest, true, []⟩) := rfl

theorem pull_node_close (b : Bool) (rest : List ParseContext) (ts : List TokResult) :
    parserNext ⟨ParseContext.Node b :: rest, false, Except.ok LexToken.closeBrace :: ts⟩ =
      (some (Except.ok ParseEvent.NodeEnd), ⟨rest, false, ts⟩) := rfl

theorem pull_node_exhausted (b : Bool) (rest : List ParseContext) :
    parserNext ⟨ParseContext.Node b :: rest, false, []⟩ =
      (some (Except.error ParseError.UnexpectedEndOfFile),
        ⟨ParseContext.Node b :: rest, true, []⟩) := rfl

theorem pull_clean_identOpen {ctx : List ParseContext} (hc : cleanStack ctx = true)
    (nm : String) (ts : List TokResult) :
    parserNext ⟨ctx, false,
        Except.ok (LexToken.identifier nm) :: Except.ok LexToken.openBrace :: ts⟩ =
      (some (Except.ok (ParseEvent.NodeStart nm)),
        ⟨ParseContext.Node true :: ctx, false, ts⟩) := by
  cases ctx with
  | nil => exact Bool.noConfusion hc
  | cons c rest =>
    cases c with
    | Basefile => rfl
    | Node b =>
      obtain ⟨hb, _⟩ := cleanStack_node hc
      subst hb
      rfl

theorem pull_file_nonident {tok : LexToken} (h : isIdentTok tok = false)
    (rest : List ParseContext) (ts : List TokResult) :
    parserNext ⟨ParseContext.Basefile :: rest, false, Except.ok tok :: ts⟩ =
      (some (Except.error (ParseError.UnexpectedToken tok)),
        ⟨ParseContext.Basefile :: rest, true, ts⟩) := by
  cases tok with
  | identifier nm => exact Bool.noConfusion h
  | openBrace => rfl
  | closeBrace => rfl
  | otherToken k => rfl

/-- Any pull from a non-ended state yields exactly one result `r`; the new
`ended` flag equals `isTerminal r`; at most two tokens are consumed; the
result is `BeginFile` only from the empty (pre-first-pull) stack; and the
result is never `InvalidState`. -/
theorem step_general (ctx : List ParseContext) (toks : List TokResult) :
    ∃ r s', parserNext ⟨ctx, false, toks⟩ = (some r, s') ∧
      s'.ended = isTerminal r ∧
      (∃ k, k ≤ 2 ∧ s'.tokens = toks.drop k) ∧
      (isBeginFile r = false ∨ ctx = []) ∧
      isInvalidRes (some r) = false := by
  cases ctx with
  | nil => exact ⟨_, _, rfl, rfl, ⟨0, by omega, rfl⟩, Or.inr rfl, rfl⟩
  | cons c rest =>
    cases c with
    | Basefile =>
      cases toks with
      | nil => exact ⟨_, _, rfl, rfl, ⟨0, by omega, rfl⟩, Or.inl rfl, rfl⟩
      | cons t ts =>
        cases t with
        | error err => exact ⟨_, _, rfl, rfl, ⟨1, by omega, rfl⟩, Or.inl rfl, rfl⟩
        | ok tok =>
          cases tok with
          | identifier nm =>
            cases ts with
            | nil => exact ⟨_, _, rfl, rfl, ⟨2, by omega, rfl⟩, Or.inl rfl, rfl⟩
            | cons t2 ts2 =>
              cases t2 with
              | error err => exact ⟨_, _, rfl, rfl, ⟨2, by omega, rfl⟩, Or.inl rfl, rfl⟩
              | ok tok2 =>
                cases tok2 <;>
                  exact ⟨_, _, rfl, rfl, ⟨2, by omega, rfl⟩, Or.inl rfl, rfl⟩
          | openBrace => exact ⟨_, _, rfl, rfl, ⟨1, by omega, rfl⟩, Or.inl rfl, rfl⟩
          | closeBrace => exact ⟨_, _, rfl, rfl, ⟨1, by omega, rfl⟩, Or.inl rfl, rfl⟩
          | otherToken k => exact ⟨_, _, rfl, rfl, ⟨1, by omega, rfl⟩, Or.inl rfl, rfl⟩
    | Node b =>
      cases toks with
      | nil => exact ⟨_, _, rfl, rfl, ⟨0, by omega, rfl⟩, Or.inl rfl, rfl⟩
      | cons t ts =>
        cases t with
        | error err => exact ⟨_, _, rfl, rfl, ⟨1, by omega, rfl⟩, Or.inl rfl, rfl⟩
        | ok tok =>
          cases tok with
          | identifier nm =>
            cases ts with
            | nil => exact ⟨_, _, rfl, rfl, ⟨2, by omega, rfl⟩, Or.inl rfl, rfl⟩
            | cons t2 ts2 =>
              cases t2 with
              | error err => exact ⟨_, _, rfl, rfl, ⟨2, by omega, rfl⟩, Or.inl rfl, rfl⟩
              | ok tok2 =>
                cases tok2 <;>
                  exact ⟨_, _, rfl, rfl, ⟨2, by omega, rfl⟩, Or.inl rfl, rfl⟩
          | openBrace => exact ⟨_, _, rfl, rfl, ⟨1, by omega, rfl⟩, Or.inl rfl, rfl⟩
          | closeBrace => exact ⟨_, _, rfl, rfl, ⟨1, by omega, rfl⟩, Or.inl rfl, rfl⟩
          | otherToken k => exact ⟨_, _, rfl, rfl, ⟨1, by omega, rfl⟩, Or.inl rfl, rfl⟩

/-- Any pull from a non-ended state with a clean stack yields one result
`r`; the stack stays clean; the stack length changes by exactly the
nesting delta of `r`; and `EndOfFile` is yielded only when the stack is
exactly `[Basefile]`, which it leaves unchanged. -/
theorem step_clean {ctx : List ParseContext} (toks : List TokResult)
    (hc : cleanStack ctx = true) :
    ∃ r s', parserNext ⟨ctx, false, toks⟩ = (some r, s') ∧
      cleanStack s'.context = true ∧
      ((s'.context.length : Int) = (ctx.length : Int) + resDelta r) ∧
      (r = Except.ok ParseEvent.EndOfFile →
        ctx = [ParseContext.Basefile] ∧ s'.context = ctx) := by
  cases ctx with
  | nil => exact Bool.noConfusion hc
  | cons c rest =>
    cases c with
    | Basefile =>
      have hr := cleanStack_basefile hc
      subst hr
      cases toks with
      | nil =>
        exact ⟨_, _, rfl, rfl, by simp [resDelta, evDelta], fun _ => ⟨rfl, rfl⟩⟩
      | cons t ts =>
        cases t with
        | error err =>
          exact ⟨_, _, rfl, rfl, by simp [resDelta], by intro hh; simp at hh⟩
        | ok tok =>
          cases tok with
          | identifier nm =>
            cases ts with
            | nil =>
              exact ⟨_, _, rfl, rfl, by simp [resDelta], by intro hh; simp at hh⟩
            | cons t2 ts2 =>
              cases t2 with
              | error err =>
                exact ⟨_, _, rfl, rfl, by simp [resDelta], by intro hh; simp at hh⟩
              | ok tok2 =>
                cases tok2 with
                | identifier nm2 =>
                  exact ⟨_, _, rfl, rfl, by simp [resDelta], by intro hh; simp at hh⟩
                | openBrace =>
                  exact ⟨_, _, rfl, rfl,
                    by simp [resDelta, evDelta], by intro hh; simp at hh⟩
                | closeBrace =>
                  exact ⟨_, _, rfl, rfl, by simp [resDelta], by intro hh; simp at hh⟩
                | otherToken k =>
                  exact ⟨_, _, rfl, rfl, by simp [resDelta], by intro hh; simp at hh⟩
          | openBrace =>
            exact ⟨_, _, rfl, rfl, by simp [resDelta], by intro hh; simp at hh⟩
          | closeBrace =>
            exact ⟨_, _, rfl, rfl, by simp [resDelta], by intro hh; simp at hh⟩
          | otherToken k =>
            exact ⟨_, _, rfl, rfl, by simp [resDelta], by intro hh; simp at hh⟩
    | Node b =>
      obtain ⟨hb, hrest⟩ := cleanStack_node hc
      subst hb
      cases toks with
      | nil =>
        exact ⟨_, _, rfl, hc, by simp [setComma, resDelta], by intro hh; simp at hh⟩
      | cons t ts =>
        cases t with
        | error err =>
          exact ⟨_, _, rfl, hc, by simp [setComma, resDelta], by intro hh; simp at hh⟩
        | ok tok =>
          cases tok with
          | identifier nm =>
            cases ts with
            | nil =>
              exact ⟨_, _, rfl, hc, by simp [setComma, resDelta], by intro hh; simp at hh⟩
            | cons t2 ts2 =>
              cases t2 with
              | error err =>
                exact ⟨_, _, rfl, hc, by simp [setComma, resDelta], by intro hh; simp at hh⟩
              | ok tok2 =>
                cases tok2 with
                | identifier nm2 =>
                  exact ⟨_, _, rfl, hc, by simp [setComma, resDelta], by intro hh; simp at hh⟩
                | openBrace =>
                  exact ⟨_, _, rfl, hc,
                    by simp [setComma, resDelta, evDelta], by intro hh; simp at hh⟩
                | closeBrace =>
                  exact ⟨_, _, rfl, hc, by simp [setComma, resDelta], by intro hh; simp at hh⟩
                | otherToken k =>
                  exact ⟨_, _, rfl, hc, by simp [setComma, resDelta], by intro hh; simp at hh⟩
          | openBrace =>
            exact ⟨_, _, rfl, hc, by simp [setComma, resDelta], by intro hh; simp at hh⟩
          | closeBrace =>
            exact ⟨_, _, rfl, hrest,
              by simp [setComma, resDelta, evDelta], by intro hh; simp at hh⟩
          | otherToken k =>
            exact ⟨_, _, rfl, hc, by simp [setComma, resDelta], by intro hh; simp at hh⟩

theorem none_iff_ended (s : ParserState) :
    (parserNext s).1 = none ↔ s.ended = true := by
  obtain ⟨ctx, e, toks⟩ := s
  cases e with
  | true => exact ⟨fun _ => rfl, fun _ => rfl⟩
  | false =>
    obtain ⟨r, s', hnext, -, -, -, -⟩ := step_general ctx toks
    rw [hnext]
    simp

theorem stateAfter_init (toks : List TokResult) (n : Nat) :
    stateAfter (initState toks) (n + 1) =
      stateAfter ⟨[ParseContext.Basefile], false, toks⟩ n := rfl

theorem resultsUpTo_init (toks : List TokResult) (n : Nat) :
    resultsUpTo (initState toks) (n + 1) =
      Except.ok ParseEvent.BeginFile ::
        resultsUpTo ⟨[ParseContext.Basefile], false, toks⟩ n := rfl

theorem resultAt_init_zero (toks : List TokResult) :
    resultAt (initState toks) 0 = some (Except.ok ParseEvent.BeginFile) := rfl

theorem resultAt_init_succ (toks : List TokResult) (n : Nat) :
    resultAt (initState toks) (n + 1) =
      resultAt ⟨[ParseContext.Basefile], false, toks⟩ n := rfl

theorem clean_run : ∀ (n : Nat) (s : ParserState), cleanStack s.context = true →
    cleanStack (stateAfter s n).context = true := by
  intro n
  induction n with
  | zero => intro s h; exact h
  | succ n ih =>
    intro s h
    obtain ⟨ctx, e, toks⟩ := s
    cases e with
    | true =>
      show cleanStack (stateAfter (parserNext ⟨ctx, true, toks⟩).2 n).context = true
      exact ih ⟨ctx, true, toks⟩ h
    | false =>
      obtain ⟨r, s', hnext, hcl, -, -⟩ := step_clean toks h
      show cleanStack (stateAfter (parserNext ⟨ctx, false, toks⟩).2 n).context = true
      rw [hnext]
      exact ih s' hcl

theorem bal_run : ∀ (n : Nat) (s : ParserState), cleanStack s.context = true →
    bal (resultsUpTo s n) + (s.context.length : Int) =
      ((stateAfter s n).context.length : Int) := by
  intro n
  induction n with
  | zero => intro s h; simp [resultsUpTo, bal, stateAfter]
  | succ n ih =>
    intro s h
    obtain ⟨ctx, e, toks⟩ := s
    cases e with
    | true =>
      rw [resultsUpTo_ended rfl, stateAfter_ended rfl]
      simp [bal]
    | false =>
      obtain ⟨r, s', hnext, hcl, hlen, -⟩ := step_clean toks h
      have h1 : resultsUpTo ⟨ctx, false, toks⟩ (n + 1) = r :: resultsUpTo s' n := by
        rw [resultsUpTo, hnext]
      have h2 : stateAfter ⟨ctx, false, toks⟩ (n + 1) = stateAfter s' n := by
        show stateAfter (parserNext ⟨ctx, false, toks⟩).2 n = _
        rw [hnext]
      rw [h1, h2]
      have h3 := ih s' hcl
      show resDelta r + bal (resultsUpTo s' n) + (ctx.length : Int) = _
      rw [← h3, hlen]
      ring

theorem ended_iff_terminal : ∀ (n : Nat) (s : ParserState), s.ended = false →
    ((stateAfter s n).ended = true ↔
      ∃ k, k < n ∧ ∃ r, resultAt s k = some r ∧ isTerminal r = true) := by
  intro n
  induction n with
  | zero =>
    intro s h
    rw [show stateAfter s 0 = s from rfl, h]
    simp
  | succ n ih =>
    intro s h
    obtain ⟨ctx, e, toks⟩ := s
    cases e with
    | true => exact Bool.noConfusion h
    | false =>
      obtain ⟨r, s', hnext, hend, -, -, -⟩ := step_general ctx toks
      have hshift : stateAfter ⟨ctx, false, toks⟩ (n + 1) = stateAfter s' n := by
        show stateAfter (parserNext ⟨ctx, false, toks⟩).2 n = _
        rw [hnext]
      have hres0 : resultAt ⟨ctx, false, toks⟩ 0 = some r := by
        show (parserNext ⟨ctx, false, toks⟩).1 = some r
        rw [hnext]
      have hresS : ∀ k, resultAt ⟨ctx, false, toks⟩ (k + 1) = resultAt s' k := by
        intro k
        show (parserNext (stateAfter (parserNext ⟨ctx, false, toks⟩).2 k)).1 = _
        rw [hnext]
        rfl
      rw [hshift]
      cases hterm : isTerminal r with
      | true =>
        have hsend : s'.ended = true := by rw [hend, hterm]
        rw [stateAfter_ended hsend n]
        simp only [hsend]
        constructor
        · intro _
          exact ⟨0, by omega, r, hres0, hterm⟩
        · intro _
          trivial
      | false =>
        have hsend : s'.ended = false := by rw [hend, hterm]
        rw [ih s' hsend]
        constructor
        · rintro ⟨k, hk, rr, hrr, hrt⟩
          exact ⟨k + 1, by omega, rr, by rw [hresS k]; exact hrr, hrt⟩
        · rintro ⟨k, hk, rr, hrr, hrt⟩
          cases k with
          | zero =>
            rw [hres0] at hrr
            cases hrr
            rw [hterm] at hrt
            exact Bool.noConfusion hrt
          | succ k =>
            rw [hresS k] at hrr
            exact ⟨k, by omega, rr, hrr, hrt⟩

theorem no_begin_from_clean : ∀ (n : Nat) (s : ParserState),
    cleanStack s.context = true →
    ∀ r, resultAt s n = some r → isBeginFile r = false := by
  intro n
  induction n with
  | zero =>
    intro s h r hr
    obtain ⟨ctx, e, toks⟩ := s
    cases e with
    | true =>
      rw [show resultAt ⟨ctx, true, toks⟩ 0 = none from rfl] at hr
      cases hr
    | false =>
      obtain ⟨r0, s', hnext, -, -, hbf, -⟩ := step_general ctx toks
      have h0 : resultAt ⟨ctx, false, toks⟩ 0 = some r0 := by
        show (parserNext ⟨ctx, false, toks⟩).1 = some r0
        rw [hnext]
      rw [h0] at hr
      cases hr
      rcases hbf with hb | hctx
      · exact hb
      · subst hctx
        exact Bool.noConfusion h
  | succ n ih =>
    intro s h r hr
    obtain ⟨ctx, e, toks⟩ := s
    cases e with
    | true =>
      have hstep : resultAt ⟨ctx, true, toks⟩ (n + 1) = resultAt ⟨ctx, true, toks⟩ n := rfl
      exact ih ⟨ctx, true, toks⟩ h r (hstep ▸ hr)
    | false =>
      obtain ⟨r0, s', hnext, hcl, -, -⟩ := step_clean toks h
      have hstep : resultAt ⟨ctx, false, toks⟩ (n + 1) = resultAt s' n := by
        show (parserNext (stateAfter (parserNext ⟨ctx, false, toks⟩).2 n)).1 = _
        rw [hnext]
        rfl
      exact ih s' hcl r (hstep ▸ hr)

theorem next_never_invalid (s : ParserState) :
    isInvalidRes (parserNext s).1 = false := by
  obtain ⟨ctx, e, toks⟩ := s
  cases e with
  | true => rfl
  | false =>
    obtain ⟨r, s', hnext, -, -, -, hinv⟩ := step_general ctx toks
    rw [hnext]
    exact hinv

/-- Claim C2: for every input and every pull index, the parser returns
`none` at pull `n` exactly when a terminal result (an error, or a success
carrying `EndOfFile`) was yielded at some earlier pull; in particular,
once a terminal result is yielded every later pull returns `none`. -/
theorem parser_exhaustion_iff_terminal (toks : List TokResult) (n : Nat) :
    resultAt (initState toks) n = none ↔
      ∃ k, k < n ∧ ∃ r, resultAt (initState toks) k = some r ∧ isTerminal r = true := by
  show (parserNext (stateAfter (initState toks) n)).1 = none ↔ _
  rw [none_iff_ended]
  exact ended_iff_terminal n (initState toks) rfl

/-- Claim C3: after the first pull, in every reachable state the context
stack consists of `Node` entries above exactly one `Basefile` entry at its
base (`goodStack`); no pull ever removes the `Basefile` entry. -/
theorem parser_basefile_invariant (toks : List TokResult) (n : Nat) :
    goodStack (stateAfter (initState toks) (n + 1)).context = true := by
  rw [stateAfter_init]
  exact cleanStack_goodStack (clean_run n ⟨[ParseContext.Basefile], false, toks⟩ rfl)

/-- Claim C5: for every input, `BeginFile` is the result of the first
pull (index 0) and of no later pull. -/
theorem parser_beginfile_iff_first (toks : List TokResult) (n : Nat) :
    resultAt (initState toks) n = some (Except.ok ParseEvent.BeginFile) ↔ n = 0 := by
  cases n with
  | zero => simp [resultAt_init_zero]
  | succ n =>
    rw [resultAt_init_succ]
    constructor
    · intro hr
      have hb := no_begin_from_clean n ⟨[ParseContext.Basefile], false, toks⟩ rfl _ hr
      exact Bool.noConfusion hb
    · intro hh
      exact absurd hh (by omega)

/-- Claim C8: for every input and pull, the defensive `InvalidState`
error is never yielded (the code never constructs it). -/
theorem parser_never_invalid_state (toks : List TokResult) (n : Nat) :
    isInvalidRes (resultAt (initState toks) n) = false :=
  next_never_invalid (stateAfter (initState toks) n)

/-- Claim C9: a single pull consumes at most two results from the token
source; the parser state consists of nothing but the context stack, the
`ended` flag and the unconsumed token-source suffix, so nothing else is
mutated. -/
theorem parser_two_token_lookahead (s : ParserState) :
    ∃ k, k ≤ 2 ∧ (parserNext s).2.tokens = s.tokens.drop k := by
  obtain ⟨ctx, e, toks⟩ := s
  cases e with
  | true => exact ⟨0, by omega, rfl⟩
  | false =>
    obtain ⟨r, s', hnext, -, hdrop, -, -⟩ := step_general ctx toks
    rw [hnext]
    exact hdrop

/-- Claim C4: the count of unmatched `NodeStart` results in the yielded
prefix never goes negative, and `EndOfFile` is yielded only when the
context stack has unwound to the root `[Basefile]` context, at which point
the count is exactly 0. -/
theorem parser_depth_invariant (toks : List TokResult) (n : Nat) :
    0 ≤ bal (resultsUpTo (initState toks) n) ∧
      (resultAt (initState toks) n = some (Except.ok ParseEvent.EndOfFile) →
        (stateAfter (initState toks) n).context = [ParseContext.Basefile] ∧
          bal (resultsUpTo (initState toks) n) = 0) := by
  cases n with
  | zero =>
    refine ⟨le_refl 0, fun hr => ?_⟩
    rw [resultAt_init_zero] at hr
    simp at hr
  | succ n =>
    have hclean : cleanStack ([ParseContext.Basefile] : List ParseContext) = true := rfl
    have hbal := bal_run n ⟨[ParseContext.Basefile], false, toks⟩ hclean
    have hcleanN := clean_run n ⟨[ParseContext.Basefile], false, toks⟩ hclean
    have hpos := cleanStack_length_pos hcleanN
    rw [resultsUpTo_init, stateAfter_init]
    simp only [List.length_cons, List.length_nil] at hbal
    constructor
    · show 0 ≤ resDelta (Except.ok ParseEvent.BeginFile) +
        bal (resultsUpTo ⟨[ParseContext.Basefile], false, toks⟩ n)
      simp only [resDelta, evDelta]
      omega
    · intro hr
      rw [resultAt_init_succ] at hr
      have hE : (stateAfter ⟨[ParseContext.Basefile], false, toks⟩ n).ended = false := by
        cases hEE : (stateAfter ⟨[ParseContext.Basefile], false, toks⟩ n).ended with
        | false => rfl
        | true =>
          rw [show resultAt ⟨[ParseContext.Basefile], false, toks⟩ n =
              (parserNext (stateAfter ⟨[ParseContext.Basefile], false, toks⟩ n)).1 from rfl,
            next_of_ended hEE] at hr
          cases hr
      have heta := state_eta _ hE
      obtain ⟨r, s', hnext, -, -, hEOF⟩ :=
        step_clean (stateAfter ⟨[ParseContext.Basefile], false, toks⟩ n).tokens hcleanN
      rw [show resultAt ⟨[ParseContext.Basefile], false, toks⟩ n =
          (parserNext (stateAfter ⟨[ParseContext.Basefile], false, toks⟩ n)).1 from rfl,
        heta, hnext] at hr
      cases hr
      obtain ⟨hbase, -⟩ := hEOF rfl
      refine ⟨hbase, ?_⟩
      rw [hbase] at hbal
      simp only [List.length_cons, List.length_nil] at hbal
      show resDelta (Except.ok ParseEvent.BeginFile) +
        bal (resultsUpTo ⟨[ParseContext.Basefile], false, toks⟩ n) = 0
      simp only [resDelta, evDelta]
      omega

/-- Witness for C4 at the empty input: pull 1 yields `EndOfFile` with the
stack at `[Basefile]` and balance exactly 0. -/
theorem parser_depth_invariant_witness :
    0 ≤ bal (resultsUpTo (initState []) 1) ∧
      ((stateAfter (initState []) 1).context = [ParseContext.Basefile] ∧
        bal (resultsUpTo (initState []) 1) = 0) :=
  ⟨(parser_depth_invariant [] 1).1, (parser_depth_invariant [] 1).2 rfl⟩

theorem forest_run : ∀ (f : Forest) (ctx : List ParseContext) (rest : List TokResult),
    cleanStack ctx = true →
    Produces ⟨ctx, false, forestTokens f ++ rest⟩
      ((forestEvents f).map Except.ok) ⟨ctx, false, rest⟩ := by
  intro f
  induction f with
  | nil =>
    intro ctx rest hc
    show Produces ⟨ctx, false, [] ++ rest⟩ _ _
    rw [List.nil_append]
    exact Produces.refl _
  | cons name children rest' ihc ihr =>
    intro ctx rest hc
    have hc2 : cleanStack (ParseContext.Node true :: ctx) = true := hc
    have h1 := pull_clean_identOpen hc name
      (forestTokens children ++ Except.ok LexToken.closeBrace :: (forestTokens rest' ++ rest))
    have h2 := ihc (ParseContext.Node true :: ctx)
      (Except.ok LexToken.closeBrace :: (forestTokens rest' ++ rest)) hc2
    have h3 := pull_node_close true ctx (forestTokens rest' ++ rest)
    have h4 := ihr ctx rest hc
    have h7 := Produces.step h1 (Produces.trans h2 (Produces.step h3 h4))
    simpa [forestTokens, forestEvents, List.append_assoc] using h7

theorem forestEvents_le (f : Forest) :
    (forestEvents f).length ≤ (forestTokens f).length := by
  induction f with
  | nil => simp [forestEvents, forestTokens]
  | cons name children rest ihc ihr =>
    simp only [forestEvents, forestTokens, List.length_cons, List.length_append]
    omega

theorem balanced_forestEvents (f : Forest) : BalancedEvents (forestEvents f) := by
  induction f with
  | nil => exact BalancedEvents.nil
  | cons name children rest ihc ihr =>
    exact BalancedEvents.node name (forestEvents children) (forestEvents rest) ihc ihr

/-- Claim C1: on every balanced `IDENT { ... }` input, the yielded stream
is exactly `BeginFile`, the pre-order `NodeStart`/`NodeEnd` events, and
`EndOfFile`; the `NodeStart`/`NodeEnd` events form a valid
balanced-parenthesis sequence with `NodeStart` as the opener, each
`NodeStart` matched by a later `NodeEnd`. -/
theorem parser_balanced_forest (f : Forest) :
    allResults (forestTokens f) =
      (ParseEvent.BeginFile :: (forestEvents f ++ [ParseEvent.EndOfFile])).map Except.ok ∧
      BalancedEvents (forestEvents f) := by
  refine ⟨?_, balanced_forestEvents f⟩
  have h0 := pull_begin (forestTokens f)
  have h1 := forest_run f [ParseContext.Basefile] [] rfl
  rw [List.append_nil] at h1
  have h2 : parserNext (⟨[ParseContext.Basefile], false, []⟩ : ParserState) =
      (some (Except.ok ParseEvent.EndOfFile),
        ⟨[ParseContext.Basefile], true, []⟩) := rfl
  have h5 := Produces.step h0
    (Produces.trans h1 (Produces.step h2 (Produces.refl _)))
  have hlen := forestEvents_le f
  have h6 := produces_resultsUpTo h5 rfl ((forestTokens f).length + 2)
    (by simp; omega)
  show resultsUpTo (initState (forestTokens f)) ((forestTokens f).length + 2) = _
  rw [h6]
  simp

/-- The token sequence `IDENT open IDENT open ...`: one opener per name,
never closed. -/
def openerTokens : List String → List TokResult
  | [] => []
  | nm :: rest =>
    Except.ok (LexToken.identifier nm) :: Except.ok LexToken.openBrace :: openerTokens rest

theorem openerTokens_length (names : List String) :
    (openerTokens names).length = 2 * names.length := by
  induction names with
  | nil => rfl
  | cons nm rest ih => simp [openerTokens, ih]; omega

theorem opener_run : ∀ (names : List String) (ctx : List ParseContext),
    cleanStack ctx = true →
    Produces ⟨ctx, false, openerTokens names⟩
      (names.map fun nm => Except.ok (ParseEvent.NodeStart nm))
      ⟨List.replicate names.length (ParseContext.Node true) ++ ctx, false, []⟩ := by
  intro names
  induction names with
  | nil => intro ctx hc; exact Produces.refl _
  | cons nm rest ih =>
    intro ctx hc
    have hc2 : cleanStack (ParseContext.Node true :: ctx) = true := hc
    have h1 := pull_clean_identOpen hc nm (openerTokens rest)
    have h2 := ih (ParseContext.Node true :: ctx) hc2
    have h3 := Produces.step h1 h2
    have hrep : List.replicate rest.length (ParseContext.Node true) ++
        (ParseContext.Node true :: ctx) =
        List.replicate (rest.length + 1) (ParseContext.Node true) ++ ctx := by
      rw [List.replicate_succ']
      rw [List.append_assoc]
      rfl
    rw [hrep] at h3
    exact h3

/-- On an opener-only input (`IDENT open` repeated, at least once) the
parser yields `BeginFile`, one `NodeStart` per opened node, then
`UnexpectedEndOfFile`, and is exhausted on every later pull. -/
theorem opener_family_run (nm : String) (names : List String) :
    allResults (openerTokens (nm :: names)) =
      Except.ok ParseEvent.BeginFile ::
        (((nm :: names).map fun x => Except.ok (ParseEvent.NodeStart x)) ++
          [Except.error ParseError.UnexpectedEndOfFile]) ∧
      ∀ k, resultAt (initState (openerTokens (nm :: names)))
        (names.length + 3 + k) = none := by
  have h0 := pull_begin (openerTokens (nm :: names))
  have h1 := opener_run (nm :: names) [ParseContext.Basefile] rfl
  have h2 : parserNext (⟨List.replicate (nm :: names).length (ParseContext.Node true) ++
        [ParseContext.Basefile], false, []⟩ : ParserState) =
      (some (Except.error ParseError.UnexpectedEndOfFile),
        ⟨List.replicate (nm :: names).length (ParseContext.Node true) ++
          [ParseContext.Basefile], true, []⟩) :=
    pull_node_exhausted true
      (List.replicate names.length (ParseContext.Node true) ++ [ParseContext.Basefile])
  have h5 := Produces.step h0 (Produces.trans h1 (Produces.step h2 (Produces.refl _)))
  have hev : (Except.ok ParseEvent.BeginFile ::
      (((nm :: names).map fun x => Except.ok (ParseEvent.NodeStart x)) ++
        [Except.error ParseError.UnexpectedEndOfFile])).length = names.length + 3 := by
    simp
  constructor
  · have h6 := produces_resultsUpTo h5 rfl ((openerTokens (nm :: names)).length + 2)
      (by rw [hev, openerTokens_length]; simp only [List.length_cons]; omega)
    exact h6
  · intro k
    have h7 := produces_stateAfter h5
    rw [hev] at h7
    show (parserNext (stateAfter (initState (openerTokens (nm :: names)))
      (names.length + 3 + k))).1 = none
    rw [stateAfter_add (names.length + 3), h7, stateAfter_ended rfl k]
    rfl

/-- Claim C7: when the first token at file level lexes successfully but is
not an identifier, the parser yields `BeginFile`, then `UnexpectedToken`
carrying that token, and is exhausted on every later pull. -/
theorem parser_unexpected_first_token {tok : LexToken} (h : isIdentTok tok = false)
    (rest : List TokResult) :
    allResults (Except.ok tok :: rest) =
      [Except.ok ParseEvent.BeginFile,
        Except.error (ParseError.UnexpectedToken tok)] ∧
      ∀ k, resultAt (initState (Except.ok tok :: rest)) (2 + k) = none := by
  have h0 := pull_begin (Except.ok tok :: rest)
  have h1 := pull_file_nonident h ([] : List ParseContext) rest
  have h5 := Produces.step h0 (Produces.step h1 (Produces.refl _))
  constructor
  · have h6 := produces_resultsUpTo h5 rfl ((Except.ok tok :: rest).length + 2)
      (by simp)
    exact h6
  · intro k
    have h7 := produces_stateAfter h5
    show (parserNext (stateAfter (initState (Except.ok tok :: rest)) (2 + k))).1 = none
    rw [stateAfter_add 2]
    rw [show stateAfter (initState (Except.ok tok :: rest)) 2 =
      (⟨[ParseContext.Basefile], true, rest⟩ : ParserState) from h7]
    rw [stateAfter_ended rfl k]
    rfl

/-- Witness for C7 at the input consisting of a single close brace. -/
theorem parser_unexpected_first_token_witness :
    isIdentTok LexToken.closeBrace = false ∧
      allResults [Except.ok LexToken.closeBrace] =
        [Except.ok ParseEvent.BeginFile,
          Except.error (ParseError.UnexpectedToken LexToken.closeBrace)] ∧
      resultAt (initState [Except.ok LexToken.closeBrace]) (2 + 5) = none :=
  ⟨rfl, (@parser_unexpected_first_token LexToken.closeBrace rfl []).1,
    (@parser_unexpected_first_token LexToken.closeBrace rfl []).2 5⟩

/-- The successful events in a result sequence, in order. -/
def okEvents : List ParseResult → List ParseEvent
  | [] => []
  | Except.ok e :: rs => e :: okEvents rs
  | Except.error _ :: rs => okEvents rs

/-- Specification-side definition, following the spec wording for the
`hasSeenSibling` flag ("the flag records whether a prior sibling entry has
already been seen in this block"): fold over the emitted events keeping,
for each currently-open block (innermost first), the number of sibling
entries already seen inside it.  A `NodeStart` begins an entry of the
enclosing block (incrementing its count) and opens a fresh block with
count 0; a `NodeEnd` closes the innermost block. -/
def stepCounts (g : List Nat) : ParseEvent → List Nat
  | ParseEvent.NodeStart _ =>
    match g with
    | [] => [0]
    | c :: gs => 0 :: (c + 1) :: gs
  | ParseEvent.NodeEnd => g.tail
  | _ => g

/-- Sibling-entry counts of the open blocks after a sequence of events,
innermost block first (mirrors the `Node` entries on the context stack). -/
def siblingCounts (evs : List ParseEvent) : List Nat := evs.foldl stepCounts []

/-- Counterexample to claim C10 at the input `IDENT open` (two pulls of
the input "node {"): the top context entry is `Node true` although zero
sibling entries have been seen inside that freshly-opened block, refuting
"the flag is true if and only if a prior sibling entry has been seen"
(the code seeds the flag with a fixed `true` on every push). -/
theorem parser_sibling_flag_cex :
    (stateAfter (initState [Except.ok (LexToken.identifier "node"),
        Except.ok LexToken.openBrace]) 2).context.head? =
      some (ParseContext.Node true) ∧
    (siblingCounts (okEvents (resultsUpTo
        (initState [Except.ok (LexToken.identifier "node"),
          Except.ok LexToken.openBrace]) 2))).head? = some 0 :=
  ⟨rfl, rfl⟩

/-- Amended claim C10: in every reachable parser state, the boolean
carried by every `Node` entry on the context stack is `true` (it is
seeded `true` at push and `set_comma` only rewrites it to `true`), so the
flag does not record whether a prior sibling entry has been seen. -/
theorem parser_sibling_flag_always_true (toks : List TokResult) (n : Nat) :
    allFlagsTrue (stateAfter (initState toks) n).context = true := by
  cases n with
  | zero => rfl
  | succ n =>
    rw [stateAfter_init]
    exact cleanStack_allFlagsTrue
      (clean_run n ⟨[ParseContext.Basefile], false, toks⟩ rfl)

/-- The token sequence of the input `a open close b open`: one node is
opened and closed, then a second node is opened and the token source is
exhausted with it still open. -/
def unterminatedToks : List TokResult :=
  [Except.ok (LexToken.identifier "a"), Except.ok LexToken.openBrace,
    Except.ok LexToken.closeBrace,
    Except.ok (LexToken.identifier "b"), Except.ok LexToken.openBrace]

/-- Counterexample to claim C6 as stated, at the input
`a open close b open`: the token source is exhausted while a `Node`
context is still open (before pull 4 the remaining tokens are `[]` and
the stack top is a `Node` entry), yet the yielded stream contains a
`NodeEnd` at index 2, so it is not of the claimed shape "`BeginFile`,
then `NodeStart` for each opened node, then `UnexpectedEndOfFile`",
which admits no `NodeEnd`. -/
theorem parser_unterminated_cex :
    (stateAfter (initState unterminatedToks) 4).tokens = [] ∧
    isNodeTop (stateAfter (initState unterminatedToks) 4).context = true ∧
    allResults unterminatedToks =
      [Except.ok ParseEvent.BeginFile,
        Except.ok (ParseEvent.NodeStart "a"),
        Except.ok ParseEvent.NodeEnd,
        Except.ok (ParseEvent.NodeStart "b"),
        Except.error ParseError.UnexpectedEndOfFile] :=
  ⟨rfl, rfl, rfl⟩

/-- Amended claim C6: for every input and every pull at which the token
source is exhausted while at least one `Node` context is still open (the
stack top is a `Node` entry and no tokens remain), that pull yields the
error `UnexpectedEndOfFile` and the stream is exhausted on every later
pull; the full event shape "`BeginFile`, then `NodeStart` for each opened
node, then `UnexpectedEndOfFile`" holds for the opener-only inputs, where
no node is ever closed. -/
theorem parser_unterminated_amended :
    (∀ (toks : List TokResult) (n : Nat),
        (stateAfter (initState toks) n).ended = false →
        (stateAfter (initState toks) n).tokens = [] →
        isNodeTop (stateAfter (initState toks) n).context = true →
        resultAt (initState toks) n =
            some (Except.error ParseError.UnexpectedEndOfFile) ∧
          ∀ k, resultAt (initState toks) (n + 1 + k) = none) ∧
    (∀ (nm : String) (names : List String),
        allResults (openerTokens (nm :: names)) =
          Except.ok ParseEvent.BeginFile ::
            (((nm :: names).map fun x => Except.ok (ParseEvent.NodeStart x)) ++
              [Except.error ParseError.UnexpectedEndOfFile]) ∧
        ∀ k, resultAt (initState (openerTokens (nm :: names)))
          (names.length + 3 + k) = none) := by
  constructor
  · intro toks n hE hT hN
    have heta := state_eta _ hE
    rcases hcx : (stateAfter (initState toks) n).context with - | ⟨c, rest⟩
    · rw [hcx] at hN
      exact Bool.noConfusion hN
    cases c with
    | Basefile =>
      rw [hcx] at hN
      exact Bool.noConfusion hN
    | Node b =>
      have hnext : parserNext (stateAfter (initState toks) n) =
          (some (Except.error ParseError.UnexpectedEndOfFile),
            ⟨ParseContext.Node b :: rest, true, []⟩) := by
        rw [heta, hcx, hT]
        exact pull_node_exhausted b rest
      refine ⟨?_, ?_⟩
      · show (parserNext (stateAfter (initState toks) n)).1 = _
        rw [hnext]
      · intro k
        show (parserNext (stateAfter (initState toks) (n + 1 + k))).1 = none
        have h1 : stateAfter (initState toks) (n + 1 + k) =
            stateAfter (stateAfter (initState toks) (n + 1)) k :=
          stateAfter_add (n + 1) (initState toks) k
        have h2 : stateAfter (initState toks) (n + 1) =
            (parserNext (stateAfter (initState toks) n)).2 := by
          rw [stateAfter_add n (initState toks) 1]
          rfl
        rw [h1, h2, hnext]
        rw [stateAfter_ended rfl k]
        rfl
  · exact opener_family_run

/-- Witness for the amended C6 at the input `a open close b open`: before
pull 4 the tokens are exhausted with a node open, pull 4 yields
`UnexpectedEndOfFile`, and pull 5 is exhausted. -/
theorem parser_unterminated_amended_witness :
    resultAt (initState unterminatedToks) 4 =
        some (Except.error ParseError.UnexpectedEndOfFile) ∧
      resultAt (initState unterminatedToks) (4 + 1 + 0) = none :=
  ⟨(parser_unterminated_amended.1 unterminatedToks 4 rfl rfl rfl).1,
    (parser_unterminated_amended.1 unterminatedToks 4 rfl rfl rfl).2 0⟩

end NodedObjects
